import Mathlib

/-!
Shallow embedding of `miasm2/analysis/mem.py`: a typed memory overlay over a
flat byte-addressable virtual memory (VmMngr).  Type descriptors (`Num`,
`Bits`, `Array`, `Union`, `BitField`) are modelled as Lean data, their
`pack`/`unpack`/`set`/`get` methods as executable functions, and the pinned
view machinery (`pin` cache, `PinnedStruct.gen_fields`,
`PinnedSizedArray` indexing and equality) as explicit state passing.

Numeric formats: the source uses Python `struct` one-scalar unsigned integer
formats ("B", "<H", "<I", "<Q", ...).  They are modelled by a byte width and
an endianness flag; `struct.pack` rejects out-of-range values, modelled by
`Option`.
-/

namespace MiasmMem

/-- The VmMngr flat byte space: address to byte content.  A byte is a plain
`Nat`; real VM bytes are in `[0, 256)`, and theorems that need this carry an
explicit hypothesis. -/
abbrev VM := Nat → Nat

/-- `vm.set_mem(addr, raw)`: write the byte string `bs` at `addr`. -/
def setMem (vm : VM) (addr : Nat) (bs : List Nat) : VM :=
  fun a => if addr ≤ a ∧ a - addr < bs.length then bs.getD (a - addr) 0 else vm a

/-- `vm.get_mem(addr, n)`: read `n` bytes starting at `addr`. -/
def getMem (vm : VM) (addr n : Nat) : List Nat :=
  (List.range n).map (fun i => vm (addr + i))

/-- Little-endian serialization of `v` on `w` bytes (the `"<"` struct
formats; each byte is the next base-256 digit, least significant first). -/
def packLE : Nat → Nat → List Nat
  | 0, _ => []
  | w + 1, v => v % 256 :: packLE w (v / 256)

/-- Little-endian deserialization: base-256 value of a byte string, least
significant byte first. -/
def unpackLE : List Nat → Nat
  | [] => 0
  | b :: bs => b + 256 * unpackLE bs

/-- A `Num(fmt)` descriptor: a one-scalar unsigned struct format, given by
its byte width (`struct.calcsize`) and endianness. -/
structure NumT where
  width : Nat
  le : Bool
deriving DecidableEq

/-- `RawStruct.size`: `struct.calcsize(fmt)`. -/
def NumT.size (n : NumT) : Nat := n.width

/-- `Num._pack`: `struct.pack(fmt, v)`; fails (struct.error) when the value
does not fit the format's width. -/
def NumT.pack (n : NumT) (v : Nat) : Option (List Nat) :=
  if v < 256 ^ n.width then
    some (if n.le then packLE n.width v else (packLE n.width v).reverse)
  else none

/-- `Num._unpack`: `struct.unpack(fmt, raw)[0]`. -/
def NumT.unpack (n : NumT) (bs : List Nat) : Nat :=
  if n.le then unpackLE bs else unpackLE bs.reverse

/-- `Type.set` for a `Num`: pack the value and write it at `addr`. -/
def NumT.set (n : NumT) (vm : VM) (addr v : Nat) : Option VM :=
  (n.pack v).map (fun raw => setMem vm addr raw)

/-- `Type.get` for a `Num`: read `size()` bytes at `addr` and unpack. -/
def NumT.get (n : NumT) (vm : VM) (addr : Nat) : Nat :=
  n.unpack (getMem vm addr n.size)

-- Basic lemmas about the byte-string codec

theorem packLE_length (w v : Nat) : (packLE w v).length = w := by
  induction w generalizing v with
  | zero => rfl
  | succ k ih => simp [packLE, ih]

theorem unpackLE_packLE (w v : Nat) (h : v < 256 ^ w) :
    unpackLE (packLE w v) = v := by
  induction w generalizing v with
  | zero => simp at h; simp [packLE, unpackLE, h]
  | succ k ih =>
    have hdiv : v / 256 < 256 ^ k := by
      rw [Nat.div_lt_iff_lt_mul (by norm_num)]
      calc v < 256 ^ (k + 1) := h
        _ = 256 ^ k * 256 := by ring
    simp [packLE, unpackLE, ih _ hdiv, Nat.mod_add_div]

theorem getMem_setMem (vm : VM) (addr : Nat) (bs : List Nat) :
    getMem (setMem vm addr bs) addr bs.length = bs := by
  apply List.ext_getElem
  · simp [getMem]
  · intro i h1 h2
    simp only [getMem, List.getElem_map, List.getElem_range, setMem]
    have hi : i < bs.length := by simpa [getMem] using h2
    rw [if_pos ⟨Nat.le_add_right _ _, by omega⟩]
    simp [Nat.add_sub_cancel_left, List.getD_eq_getElem?_getD,
      List.getElem?_eq_getElem hi]

theorem setMem_outside (vm : VM) (addr : Nat) (bs : List Nat) (a : Nat)
    (h : a < addr ∨ addr + bs.length ≤ a) : setMem vm addr bs a = vm a := by
  unfold setMem
  rw [if_neg]
  omega

theorem NumT.pack_some (n : NumT) (v : Nat) (h : v < 256 ^ n.width) :
    n.pack v = some (if n.le then packLE n.width v else (packLE n.width v).reverse) := by
  simp [NumT.pack, h]

theorem NumT.unpack_pack (n : NumT) (v : Nat) (h : v < 256 ^ n.width)
    (raw : List Nat) (hp : n.pack v = some raw) : n.unpack raw = v := by
  rw [NumT.pack_some n v h] at hp
  cases hp
  cases hle : n.le <;>
    simp [NumT.unpack, hle, List.reverse_reverse, unpackLE_packLE n.width v h]

theorem NumT.pack_length (n : NumT) (v : Nat) (raw : List Nat)
    (hp : n.pack v = some raw) : raw.length = n.width := by
  unfold NumT.pack at hp
  by_cases h : v < 256 ^ n.width
  · rw [if_pos h] at hp
    cases hp
    cases n.le <;> simp [packLE_length]
  · rw [if_neg h] at hp; cases hp

theorem NumT.get_set (n : NumT) (vm : VM) (addr v : Nat)
    (h : v < 256 ^ n.width) (vm' : VM) (hs : n.set vm addr v = some vm') :
    n.get vm' addr = v := by
  unfold NumT.set at hs
  obtain ⟨raw, hp, hvm⟩ := Option.map_eq_some'.mp hs
  subst hvm
  have hlen := NumT.pack_length n v raw hp
  unfold NumT.get NumT.size
  rw [← hlen, getMem_setMem]
  exact NumT.unpack_pack n v h raw hp

/-- C1.  Round-trip for `Num` descriptors: for any one-scalar format and any
value in the format's domain, `unpack (pack v) = v`, and on any VM state,
`get` after `set` at the same address returns `v`. -/
theorem num_roundtrip (n : NumT) (v : Nat) (vm : VM) (addr : Nat)
    (h : v < 256 ^ n.width) :
    (∃ raw, n.pack v = some raw ∧ n.unpack raw = v) ∧
    (∃ vm', n.set vm addr v = some vm' ∧ n.get vm' addr = v) := by
  constructor
  · refine ⟨_, NumT.pack_some n v h, ?_⟩
    exact NumT.unpack_pack n v h _ (NumT.pack_some n v h)
  · have hs : n.set vm addr v =
        some (setMem vm addr (if n.le then packLE n.width v else (packLE n.width v).reverse)) := by
      simp [NumT.set, NumT.pack_some n v h]
    exact ⟨_, hs, NumT.get_set n vm addr v h _ hs⟩

/-- Witness for C1 at `Num("<H")`, value `0x1234`, a zeroed VM, address 8. -/
theorem num_roundtrip_witness :
    (0x1234 < 256 ^ (NumT.mk 2 true).width) ∧
    ((∃ raw, (NumT.mk 2 true).pack 0x1234 = some raw ∧
        (NumT.mk 2 true).unpack raw = 0x1234) ∧
     (∃ vm', (NumT.mk 2 true).set (fun _ => 0) 8 0x1234 = some vm' ∧
        (NumT.mk 2 true).get vm' 8 = 0x1234)) :=
  ⟨by norm_num, num_roundtrip (NumT.mk 2 true) 0x1234 (fun _ => 0) 8 (by norm_num)⟩

-- Bits and BitField (mem.py, `class Bits` and `class BitField`)

/-- `Bits(backing_num, bits, bit_offset)`: some bits of a `Num`. -/
structure BitsT where
  num : NumT
  bits : Nat
  bitOffset : Nat
deriving DecidableEq

/-- `Bits.size`: the backing num's size. -/
def BitsT.size (b : BitsT) : Nat := b.num.size

/-- `Bits.set`.  Python computes `num_mask = (~(val_mask << bit_offset)) &
full_num_mask` with arbitrary-precision two's complement `~`; on `Nat` the
same masked result is `((val_mask <<< off) &&& full) ^^^ full`. -/
def BitsT.set (b : BitsT) (vm : VM) (addr v : Nat) : Option VM :=
  let valMask := (1 <<< b.bits) - 1
  let valShifted := (v &&& valMask) <<< b.bitOffset
  let numSize := b.num.size * 8
  let fullNumMask := (1 <<< numSize) - 1
  let numMask := ((valMask <<< b.bitOffset) &&& fullNumMask) ^^^ fullNumMask
  let numVal := b.num.get vm addr
  let resVal := (numVal &&& numMask) ||| valShifted
  b.num.set vm addr resVal

/-- `Bits.get`. -/
def BitsT.get (b : BitsT) (vm : VM) (addr : Nat) : Nat :=
  let valMask := (1 <<< b.bits) - 1
  let numVal := b.num.get vm addr
  (numVal >>> b.bitOffset) &&& valMask

/-- The field-building loop of `BitField.__init__`: successive `Bits` fields
over the backing num, bit offsets assigned consecutively from the LSB;
also returns the accumulated total bit count. -/
def bitFieldFieldsAux (num : NumT) :
    List (String × Nat) → Nat → List (String × BitsT) × Nat
  | [], off => ([], off)
  | (name, bits) :: rest, off =>
    let r := bitFieldFieldsAux num rest (off + bits)
    ((name, ⟨num, bits, off⟩) :: r.1, r.2)

/-- `BitField.__init__`: fails when the sum of bit lengths exceeds the
backing num size in bits. -/
def BitField.make (num : NumT) (bitList : List (String × Nat)) :
    Option (List (String × BitsT)) :=
  let r := bitFieldFieldsAux num bitList 0
  if r.2 > num.size * 8 then none else some r.1

-- Bound lemmas feeding the Bits proofs

theorem unpackLE_lt (bs : List Nat) (h : ∀ b ∈ bs, b < 256) :
    unpackLE bs < 256 ^ bs.length := by
  induction bs with
  | nil => simp [unpackLE]
  | cons b rest ih =>
    have hb : b < 256 := h b (by simp)
    have hr := ih (fun x hx => h x (by simp [hx]))
    simp only [unpackLE, List.length_cons]
    have h2 : 256 * (unpackLE rest + 1) ≤ 256 * 256 ^ rest.length :=
      Nat.mul_le_mul_left 256 hr
    have h3 : (256 : Nat) ^ (rest.length + 1) = 256 * 256 ^ rest.length := by ring
    omega

theorem NumT.get_lt (n : NumT) (vm : VM) (addr : Nat)
    (h : ∀ i, i < n.size → vm (addr + i) < 256) :
    n.get vm addr < 256 ^ n.width := by
  have hmem : ∀ b ∈ getMem vm addr n.size, b < 256 := by
    intro b hb
    simp only [getMem, List.mem_map, List.mem_range] at hb
    obtain ⟨i, hi, rfl⟩ := hb
    exact h i hi
  have hlen : (getMem vm addr n.size).length = n.width := by
    simp [getMem, NumT.size]
  unfold NumT.get NumT.unpack
  cases hle : n.le
  · have := unpackLE_lt (getMem vm addr n.size).reverse
      (by intro b hb; exact hmem b (List.mem_reverse.mp hb))
    simpa [hlen] using this
  · have := unpackLE_lt (getMem vm addr n.size) hmem
    simpa [hlen] using this

theorem pow256_eq (w : Nat) : (256 : Nat) ^ w = 2 ^ (w * 8) := by
  have : (256 : Nat) = 2 ^ 8 := by norm_num
  rw [this, ← pow_mul, Nat.mul_comm]

theorem shiftl_one_sub_one (k : Nat) : (1 <<< k) - 1 = 2 ^ k - 1 := by
  simp [Nat.shiftLeft_eq]

theorem getMem_one (vm : VM) (addr : Nat) : getMem vm addr 1 = [vm addr] := by
  simp [getMem, List.range_succ]

theorem byte_get_eq (vm : VM) (addr : Nat) :
    NumT.get ⟨1, true⟩ vm addr = vm addr := by
  simp [NumT.get, NumT.size, NumT.unpack, getMem, List.range_succ, unpackLE]

theorem byte_set_eq (vm : VM) (addr v : Nat) (h : v < 256) :
    NumT.set ⟨1, true⟩ vm addr v = some (setMem vm addr [v]) := by
  simp [NumT.set, NumT.pack, packLE, pow_one, h, Nat.mod_eq_of_lt h]

/-- The value `Bits.set` writes back stays below `2 ^ (num.size * 8)`. -/
theorem bits_update_lt (numVal v n off m : Nat) (hwf : off + n ≤ m) :
    (numVal &&& ((((1 <<< n) - 1) <<< off &&& ((1 <<< m) - 1)) ^^^ ((1 <<< m) - 1))) |||
      ((v &&& ((1 <<< n) - 1)) <<< off) < 2 ^ m := by
  have hfull_lt : 2 ^ m - 1 < 2 ^ m :=
    Nat.sub_lt (Nat.two_pow_pos m) (by norm_num)
  have hmask_lt :
      (((1 <<< n) - 1) <<< off &&& ((1 <<< m) - 1)) ^^^ ((1 <<< m) - 1) < 2 ^ m := by
    rw [shiftl_one_sub_one m]
    exact Nat.xor_lt_two_pow (Nat.and_lt_two_pow _ hfull_lt) hfull_lt
  apply Nat.or_lt_two_pow (Nat.and_lt_two_pow _ hmask_lt)
  rw [shiftl_one_sub_one n, Nat.shiftLeft_eq]
  have h1 : v &&& (2 ^ n - 1) < 2 ^ n :=
    Nat.and_lt_two_pow _ (Nat.sub_lt (Nat.two_pow_pos n) (by norm_num))
  calc (v &&& (2 ^ n - 1)) * 2 ^ off
      < 2 ^ n * 2 ^ off := Nat.mul_lt_mul_of_pos_right h1 (Nat.two_pow_pos off)
    _ = 2 ^ (off + n) := by rw [← pow_add]; ring_nf
    _ ≤ 2 ^ m := Nat.pow_le_pow_right (by norm_num) hwf

/-- Bit-level characterization of the value `Bits.set` writes back. -/
theorem bits_update_testBit (numVal v n off m j : Nat) (hj : j < m) :
    ((numVal &&& ((((1 <<< n) - 1) <<< off &&& ((1 <<< m) - 1)) ^^^ ((1 <<< m) - 1))) |||
      ((v &&& ((1 <<< n) - 1)) <<< off)).testBit j =
      if off ≤ j ∧ j < off + n then v.testBit (j - off) else numVal.testBit j := by
  rw [shiftl_one_sub_one m, shiftl_one_sub_one n]
  simp only [Nat.testBit_or, Nat.testBit_and, Nat.testBit_xor,
    Nat.testBit_shiftLeft, Nat.testBit_two_pow_sub_one]
  have hjm : decide (j < m) = true := decide_eq_true hj
  by_cases hge : off ≤ j
  · have h1 : decide (j ≥ off) = true := decide_eq_true hge
    by_cases hlt : j - off < n
    · have h2 : decide (j - off < n) = true := decide_eq_true hlt
      rw [if_pos ⟨hge, by omega⟩]
      simp [h1, h2, hjm]
    · have h2 : decide (j - off < n) = false := by
        simp only [decide_eq_false_iff_not]; omega
      rw [if_neg (by omega)]
      simp [h1, h2, hjm]
  · have h1 : decide (j ≥ off) = false := by
      simp only [decide_eq_false_iff_not]; omega
    rw [if_neg (by omega)]
    simp [h1, hjm]

/-- C3.  `Bits(num, n, off)` semantics: `get` returns
`(num.get() >>> off) &&& ((1 <<< n) - 1)`; `set` reads the existing num
value, clears bits `[off, off + n)`, ORs in `(val &&& mask) <<< off` and
writes back, truncating `val` to `n` bits and leaving every other bit of the
backing num unchanged.  In particular, for
`BitField(Num("B"), [("f1",2),("f2",4),("f3",1)])` memset to 0, setting
`f2 = 2` then `f1 = 5` gives reads `f1 = 1`, `f2 = 2`, `f3 = 0` and raw byte
`0x09`. -/
theorem bits_semantics (b : BitsT) (vm : VM) (addr v : Nat)
    (hwf : b.bitOffset + b.bits ≤ b.num.size * 8) :
    (b.get vm addr = (b.num.get vm addr >>> b.bitOffset) &&& ((1 <<< b.bits) - 1)) ∧
    (∃ vm', b.set vm addr v = some vm' ∧
      ∀ j, j < b.num.size * 8 →
        (b.num.get vm' addr).testBit j =
          if b.bitOffset ≤ j ∧ j < b.bitOffset + b.bits then v.testBit (j - b.bitOffset)
          else (b.num.get vm addr).testBit j) ∧
    (∀ (vm0 : VM) (addr0 : Nat),
      BitField.make ⟨1, true⟩ [("f1", 2), ("f2", 4), ("f3", 1)] =
        some [("f1", ⟨⟨1, true⟩, 2, 0⟩), ("f2", ⟨⟨1, true⟩, 4, 2⟩),
              ("f3", ⟨⟨1, true⟩, 1, 6⟩)] ∧
      ∃ w2 w3,
        BitsT.set ⟨⟨1, true⟩, 4, 2⟩ (setMem vm0 addr0 [0]) addr0 2 = some w2 ∧
        BitsT.set ⟨⟨1, true⟩, 2, 0⟩ w2 addr0 5 = some w3 ∧
        BitsT.get ⟨⟨1, true⟩, 2, 0⟩ w3 addr0 = 1 ∧
        BitsT.get ⟨⟨1, true⟩, 4, 2⟩ w3 addr0 = 2 ∧
        BitsT.get ⟨⟨1, true⟩, 1, 6⟩ w3 addr0 = 0 ∧
        getMem w3 addr0 1 = [0x09]) := by
  refine ⟨rfl, ?_, ?_⟩
  · -- general set semantics
    have hR : b.set vm addr v = b.num.set vm addr
        ((b.num.get vm addr &&&
          ((((1 <<< b.bits) - 1) <<< b.bitOffset &&& ((1 <<< (b.num.size * 8)) - 1)) ^^^
            ((1 <<< (b.num.size * 8)) - 1))) |||
          ((v &&& ((1 <<< b.bits) - 1)) <<< b.bitOffset)) := rfl
    have hlt : (b.num.get vm addr &&&
          ((((1 <<< b.bits) - 1) <<< b.bitOffset &&& ((1 <<< (b.num.size * 8)) - 1)) ^^^
            ((1 <<< (b.num.size * 8)) - 1))) |||
          ((v &&& ((1 <<< b.bits) - 1)) <<< b.bitOffset) < 256 ^ b.num.width := by
      rw [pow256_eq]
      exact bits_update_lt (b.num.get vm addr) v b.bits b.bitOffset _ hwf
    obtain ⟨vm', hvm'⟩ : ∃ vm', b.num.set vm addr
        ((b.num.get vm addr &&&
          ((((1 <<< b.bits) - 1) <<< b.bitOffset &&& ((1 <<< (b.num.size * 8)) - 1)) ^^^
            ((1 <<< (b.num.size * 8)) - 1))) |||
          ((v &&& ((1 <<< b.bits) - 1)) <<< b.bitOffset)) = some vm' := by
      simp [NumT.set, NumT.pack_some _ _ hlt]
    have hget' := NumT.get_set b.num vm addr _ hlt vm' hvm'
    refine ⟨vm', by rw [hR]; exact hvm', ?_⟩
    intro j hj
    rw [hget']
    exact bits_update_testBit (b.num.get vm addr) v b.bits b.bitOffset
      (b.num.size * 8) j hj
  · -- concrete BitField scenario
    intro vm0 addr0
    refine ⟨by simp [BitField.make, bitFieldFieldsAux, NumT.size], ?_⟩
    have hA : setMem vm0 addr0 [0] addr0 = 0 := by
      simp [setMem]
    have h2 : BitsT.set ⟨⟨1, true⟩, 4, 2⟩ (setMem vm0 addr0 [0]) addr0 2 =
        some (setMem (setMem vm0 addr0 [0]) addr0 [8]) := by
      have e : BitsT.set ⟨⟨1, true⟩, 4, 2⟩ (setMem vm0 addr0 [0]) addr0 2 =
          NumT.set ⟨1, true⟩ (setMem vm0 addr0 [0]) addr0
            ((NumT.get ⟨1, true⟩ (setMem vm0 addr0 [0]) addr0 &&& 195) ||| 8) := rfl
      rw [e, byte_get_eq, hA]
      have hv : ((0 : Nat) &&& 195) ||| 8 = 8 := by decide
      rw [hv]
      exact byte_set_eq _ _ 8 (by norm_num)
    have hw2 : setMem (setMem vm0 addr0 [0]) addr0 [8] addr0 = 8 := by
      simp [setMem]
    have h1 : BitsT.set ⟨⟨1, true⟩, 2, 0⟩ (setMem (setMem vm0 addr0 [0]) addr0 [8]) addr0 5 =
        some (setMem (setMem (setMem vm0 addr0 [0]) addr0 [8]) addr0 [9]) := by
      have e : BitsT.set ⟨⟨1, true⟩, 2, 0⟩ (setMem (setMem vm0 addr0 [0]) addr0 [8]) addr0 5 =
          NumT.set ⟨1, true⟩ (setMem (setMem vm0 addr0 [0]) addr0 [8]) addr0
            ((NumT.get ⟨1, true⟩ (setMem (setMem vm0 addr0 [0]) addr0 [8]) addr0 &&& 252)
              ||| 1) := rfl
      rw [e, byte_get_eq, hw2]
      have hv : ((8 : Nat) &&& 252) ||| 1 = 9 := by decide
      rw [hv]
      exact byte_set_eq _ _ 9 (by norm_num)
    have hw3 : setMem (setMem (setMem vm0 addr0 [0]) addr0 [8]) addr0 [9] addr0 = 9 := by
      simp [setMem]
    refine ⟨_, _, h2, h1, ?_, ?_, ?_, ?_⟩
    · have e : BitsT.get ⟨⟨1, true⟩, 2, 0⟩
          (setMem (setMem (setMem vm0 addr0 [0]) addr0 [8]) addr0 [9]) addr0 =
          (NumT.get ⟨1, true⟩
            (setMem (setMem (setMem vm0 addr0 [0]) addr0 [8]) addr0 [9]) addr0 >>> 0)
            &&& 3 := rfl
      rw [e, byte_get_eq, hw3]
      decide
    · have e : BitsT.get ⟨⟨1, true⟩, 4, 2⟩
          (setMem (setMem (setMem vm0 addr0 [0]) addr0 [8]) addr0 [9]) addr0 =
          (NumT.get ⟨1, true⟩
            (setMem (setMem (setMem vm0 addr0 [0]) addr0 [8]) addr0 [9]) addr0 >>> 2)
            &&& 15 := rfl
      rw [e, byte_get_eq, hw3]
      decide
    · have e : BitsT.get ⟨⟨1, true⟩, 1, 6⟩
          (setMem (setMem (setMem vm0 addr0 [0]) addr0 [8]) addr0 [9]) addr0 =
          (NumT.get ⟨1, true⟩
            (setMem (setMem (setMem vm0 addr0 [0]) addr0 [8]) addr0 [9]) addr0 >>> 6)
            &&& 1 := rfl
      rw [e, byte_get_eq, hw3]
      decide
    · rw [getMem_one, hw3]

/-- Witness for C3: `Bits(Num("B"), 2, 0)` on a zeroed VM at address 0,
value 5. -/
theorem bits_semantics_witness :
    ((0 : Nat) + 2 ≤ 1 * 8) ∧
    (BitsT.get ⟨⟨1, true⟩, 2, 0⟩ (fun _ => 0) 0 =
      (NumT.get ⟨1, true⟩ (fun _ => 0) 0 >>> 0) &&& ((1 <<< 2) - 1)) :=
  ⟨by norm_num,
   (bits_semantics ⟨⟨1, true⟩, 2, 0⟩ (fun _ => 0) 0 5 (by decide)).1⟩

-- Descriptor algebra

/-- Descriptor algebra for the aggregate-level claims: `Num(fmt)`,
`Bits(num, bits, off)` (backing num inlined, as enforced by the `Bits`
constructor), `Array(field_type, array_len)`.  `deriving DecidableEq`
mirrors the structural `__eq__` (with a consistent `__hash__`) of the
`Type` classes. -/
inductive Ty where
  | num (n : NumT)
  | bits (b : BitsT)
  | array (elem : Ty) (len : Nat)
deriving DecidableEq

/-- `Type.size` dispatch: `Num` is its format width, `Bits` the backing
num's size, `Array` is `field_type.size() * array_len`. -/
def Ty.size : Ty → Nat
  | .num n => n.size
  | .bits b => b.size
  | .array e len => e.size * len

/-- Python values handed to `Type.set`: numbers for `Num`/`Bits`, lists for
`Array` (the `Array.set` list branch). -/
inductive Val where
  | nat (v : Nat)
  | list (vs : List Val)

mutual

/-- `Type.set` dispatch over the descriptor algebra: `Num.set` packs and
writes, `Bits.set` read-modify-writes the backing num, `Array.set` with a
list checks `len(val) == array_len` then writes element-wise; a value of
the wrong shape or out of the format's range raises (`none`). -/
def Ty.set : Ty → VM → Nat → Val → Option VM
  | .num n, vm, addr, .nat v => n.set vm addr v
  | .num _, _, _, .list _ => none
  | .bits b, vm, addr, .nat v => b.set vm addr v
  | .bits _, _, _, .list _ => none
  | .array e len, vm, addr, .list vs =>
    if vs.length = len then Ty.setList e vm addr vs else none
  | .array _ _, _, _, .nat _ => none
termination_by t _ _ _ => (sizeOf t, 0)

/-- The element loop of `Array.set`: `offset` advances by
`field_type.size()` after each element. -/
def Ty.setList : Ty → VM → Nat → List Val → Option VM
  | _, vm, _, [] => some vm
  | e, vm, addr, v :: vs =>
    match Ty.set e vm addr v with
    | none => none
    | some vm2 => Ty.setList e vm2 (addr + e.size) vs
termination_by e _ _ vs => (sizeOf e, vs.length + 1)

end

-- Frame lemmas for C9

theorem numT_set_frame (n : NumT) (vm : VM) (addr v : Nat) (vm' : VM)
    (h : n.set vm addr v = some vm') (a : Nat)
    (ha : a < addr ∨ addr + n.size ≤ a) : vm' a = vm a := by
  unfold NumT.set at h
  obtain ⟨raw, hp, hvm⟩ := Option.map_eq_some'.mp h
  subst hvm
  have hlen := NumT.pack_length n v raw hp
  apply setMem_outside
  rw [hlen]
  exact ha

theorem bitsT_set_frame (b : BitsT) (vm : VM) (addr v : Nat) (vm' : VM)
    (h : b.set vm addr v = some vm') (a : Nat)
    (ha : a < addr ∨ addr + b.size ≤ a) : vm' a = vm a := by
  have h2 : b.num.set vm addr
      ((b.num.get vm addr &&&
        ((((1 <<< b.bits) - 1) <<< b.bitOffset &&& ((1 <<< (b.num.size * 8)) - 1)) ^^^
          ((1 <<< (b.num.size * 8)) - 1))) |||
        ((v &&& ((1 <<< b.bits) - 1)) <<< b.bitOffset)) = some vm' := h
  exact numT_set_frame b.num vm addr _ vm' h2 a ha

theorem setList_frame (e : Ty)
    (IH : ∀ vm addr v vm', Ty.set e vm addr v = some vm' →
      ∀ a, a < addr ∨ addr + e.size ≤ a → vm' a = vm a) :
    ∀ vs vm addr vm', Ty.setList e vm addr vs = some vm' →
      ∀ a, a < addr ∨ addr + e.size * vs.length ≤ a → vm' a = vm a := by
  intro vs
  induction vs with
  | nil =>
    intro vm addr vm' h a _
    simp only [Ty.setList, Option.some.injEq] at h
    rw [← h]
  | cons v vs ih =>
    intro vm addr vm' h a ha
    have hms : e.size * (vs.length + 1) = e.size * vs.length + e.size := by ring
    simp only [Ty.setList] at h
    cases hset : Ty.set e vm addr v with
    | none => rw [hset] at h; cases h
    | some vm2 =>
      rw [hset] at h
      have h1 : vm2 a = vm a := by
        apply IH vm addr v vm2 hset a
        simp only [List.length_cons] at ha
        omega
      have h2 : vm' a = vm2 a := by
        apply ih vm2 (addr + e.size) vm' h a
        simp only [List.length_cons] at ha
        omega
      rw [h2, h1]

/-- C9.  Frame property of `set`: whenever `T.set(vm, addr, v)` succeeds,
every VM byte outside `[addr, addr + T.size())` is unchanged; only the
bytes covered by the descriptor are written. -/
theorem set_frame (t : Ty) (vm : VM) (addr : Nat) (v : Val) (vm' : VM)
    (h : t.set vm addr v = some vm') (a : Nat)
    (ha : a < addr ∨ addr + t.size ≤ a) : vm' a = vm a := by
  induction t generalizing vm addr v vm' a with
  | num n =>
    cases v with
    | nat x =>
      simp only [Ty.set] at h
      exact numT_set_frame n vm addr x vm' h a ha
    | list vs => simp [Ty.set] at h
  | bits b =>
    cases v with
    | nat x =>
      simp only [Ty.set] at h
      exact bitsT_set_frame b vm addr x vm' h a ha
    | list vs => simp [Ty.set] at h
  | array e len ihe =>
    cases v with
    | nat x => simp [Ty.set] at h
    | list vs =>
      simp only [Ty.set] at h
      by_cases hlen : vs.length = len
      · rw [if_pos hlen] at h
        have := setList_frame e
          (fun vm addr v vm' hs a ha => ihe vm addr v vm' hs a ha)
          vs vm addr vm' h a
        apply this
        rw [hlen]
        exact ha
      · rw [if_neg hlen] at h; cases h

/-- Witness for C9: writing `Num("<H")` value 5 at address 10 leaves the
byte at address 3 unchanged. -/
theorem set_frame_witness :
    Ty.set (.num ⟨2, true⟩) (fun _ => 0) 10 (.nat 5) =
      some (setMem (fun _ => 0) 10 (packLE 2 5)) ∧
    setMem (fun _ => 0) 10 (packLE 2 5) 3 = 0 := by
  have h : Ty.set (.num ⟨2, true⟩) (fun _ => 0) 10 (.nat 5) =
      some (setMem (fun _ => 0) 10 (packLE 2 5)) := by
    simp [Ty.set, NumT.set, NumT.pack_some ⟨2, true⟩ 5 (by norm_num)]
  exact ⟨h, set_frame (.num ⟨2, true⟩) (fun _ => 0) 10 (.nat 5) _ h 3
    (Or.inl (by norm_num))⟩

-- Struct layout (PinnedStruct.gen_fields / sizeof)

/-- The loop of `PinnedStruct.gen_fields`: walk the declared field list in
order, record each field with the running offset into `_attrs`, then
accumulate `offset += field.size()`; also returns the final offset, which
`gen_fields` stores as `cls._size`. -/
def genFieldsFrom : List (String × Ty) → Nat → List (String × Ty × Nat) × Nat
  | [], offset => ([], offset)
  | (name, f) :: rest, offset =>
    let r := genFieldsFrom rest (offset + f.size)
    ((name, f, offset) :: r.1, r.2)

/-- `PinnedStruct.gen_fields`: the loop starts at offset 0. -/
def genFields (fields : List (String × Ty)) : List (String × Ty × Nat) × Nat :=
  genFieldsFrom fields 0

/-- `PinnedStruct.sizeof`: returns `cls._size` as set by `gen_fields`. -/
def PinnedStruct.sizeof (fields : List (String × Ty)) : Nat :=
  (genFields fields).2

/-- Sum of the declared fields' sizes. -/
def sumSizes (fields : List (String × Ty)) : Nat :=
  (fields.map (fun p => p.2.size)).sum

theorem genFieldsFrom_spec (fields : List (String × Ty)) (off : Nat) :
    (genFieldsFrom fields off).2 = off + sumSizes fields ∧
    ∀ i, i < fields.length →
      ((genFieldsFrom fields off).1.map (fun e => e.2.2)).get? i =
        some (off + sumSizes (fields.take i)) := by
  induction fields generalizing off with
  | nil =>
    refine ⟨by simp [genFieldsFrom, sumSizes], ?_⟩
    intro i hi
    simp at hi
  | cons p rest ih =>
    obtain ⟨name, f⟩ := p
    constructor
    · simp only [genFieldsFrom]
      rw [(ih (off + f.size)).1]
      simp only [sumSizes, List.map_cons, List.sum_cons]
      omega
    · intro i hi
      cases i with
      | zero => simp [genFieldsFrom, sumSizes]
      | succ j =>
        simp only [genFieldsFrom, List.map_cons, List.get?_cons_succ]
        have hrec := (ih (off + f.size)).2 j (by simpa using hi)
        rw [hrec]
        have htake : sumSizes (((name, f) :: rest).take (j + 1)) =
            f.size + sumSizes (rest.take j) := by
          simp [sumSizes, List.take_succ_cons]
        rw [htake]
        congr 1
        omega

/-- C2.  Layout stability: for a `PinnedStruct` built from a declared field
list, the offset `gen_fields` records for the `i`-th field is the sum of
the sizes of the preceding fields (packed, no padding), and `sizeof()` is
the sum of all the declared fields' sizes. -/
theorem layout_stability (fields : List (String × Ty)) :
    (∀ i, i < fields.length →
      ((genFields fields).1.map (fun e => e.2.2)).get? i =
        some (sumSizes (fields.take i))) ∧
    PinnedStruct.sizeof fields = sumSizes fields := by
  have h := genFieldsFrom_spec fields 0
  refine ⟨fun i hi => ?_, ?_⟩
  · have := h.2 i hi
    simpa [genFields] using this
  · have := h.1
    simpa [PinnedStruct.sizeof, genFields] using this

/-- Witness for C2 on `[("a", Num("<I")), ("b", Num("B"))]`, field index 1. -/
theorem layout_stability_witness :
    (1 < ([("a", Ty.num ⟨4, true⟩), ("b", Ty.num ⟨1, true⟩)] :
        List (String × Ty)).length) ∧
    ((genFields [("a", Ty.num ⟨4, true⟩), ("b", Ty.num ⟨1, true⟩)]).1.map
        (fun e => e.2.2)).get? 1 =
      some (sumSizes ([("a", Ty.num ⟨4, true⟩), ("b", Ty.num ⟨1, true⟩)].take 1)) ∧
    PinnedStruct.sizeof [("a", Ty.num ⟨4, true⟩), ("b", Ty.num ⟨1, true⟩)] =
      sumSizes [("a", Ty.num ⟨4, true⟩), ("b", Ty.num ⟨1, true⟩)] := by
  have h := layout_stability [("a", Ty.num ⟨4, true⟩), ("b", Ty.num ⟨1, true⟩)]
  exact ⟨by norm_num, h.1 1 (by norm_num), h.2⟩

-- Union (mem.py, `class Union`)

/-- `Union.size`: `max(field.size() for _, field in self.field_list)`
(Python `max` over the member sizes, here folded from 0). -/
def Union.size (fields : List (String × Ty)) : Nat :=
  fields.foldl (fun acc p => max acc p.2.size) 0

/-- Python exceptions raised by the embedded methods. -/
inductive PyErr where
  | typeError
  | valueError
  | indexError
deriving DecidableEq

/-- Values handed to `Union.set`: a raw byte string (Python `str`) or
anything else. -/
inductive PyVal where
  | raw (bs : List Nat)
  | other

/-- `Union.set` as written in the source:
`if not isinstance(val, str) or not len(str) == self.size()`.  A non-str
value short-circuits the `or` into the `ValueError` branch; for a str
value Python evaluates `len(str)` — `len` applied to the builtin `str`
type itself — which raises `TypeError`.  The write `vm.set_mem(vm, addr,
val)` (itself passing `vm` where the address belongs) is never reached,
whatever the value. -/
def Union.set (_fields : List (String × Ty)) (_vm : VM) (_addr : Nat)
    (val : PyVal) : Except PyErr VM :=
  match val with
  | .raw _ => .error .typeError
  | .other => .error .valueError

/-- `PinnedStruct._gen_union_attr`: every union member is generated (via
`gen_field(name, field, offset)`) at the union's own offset. -/
def genUnionAttrs (fields : List (String × Ty)) (offset : Nat) :
    List (String × Ty × Nat) :=
  fields.map (fun p => (p.1, p.2, offset))

theorem getMem_getD (vm : VM) (addr n i : Nat) (h : i < n) :
    (getMem vm addr n).getD i 0 = vm (addr + i) := by
  have hlen : i < (getMem vm addr n).length := by simp [getMem, h]
  rw [List.getD_eq_getElem _ _ hlen]
  simp [getMem]

theorem setMem_inside (vm : VM) (addr : Nat) (bs : List Nat) (i : Nat)
    (h : i < bs.length) : setMem vm addr bs (addr + i) = bs.getD i 0 := by
  unfold setMem
  rw [if_pos (⟨Nat.le_add_right _ _, by omega⟩ : addr ≤ addr + i ∧ addr + i - addr < bs.length)]
  simp

/-- C4 (code evaluation).  `Union.set` never succeeds: with a raw byte
string of exactly `size()` bytes (here the one-byte union
`[("a", Num("B"))]` and the one-byte string `"\x41"`) the length check
raises `TypeError` because it calls `len` on the `str` builtin itself, and
any non-str value raises `ValueError`; no bytes are ever written. -/
theorem union_set_raises :
    Union.size [("a", Ty.num ⟨1, true⟩)] = 1 ∧
    ([0x41] : List Nat).length = 1 ∧
    Union.set [("a", Ty.num ⟨1, true⟩)] (fun _ => 0) 0 (.raw [0x41]) =
      .error .typeError ∧
    Union.set [("a", Ty.num ⟨1, true⟩)] (fun _ => 0) 0 .other =
      .error .valueError :=
  ⟨rfl, rfl, rfl, rfl⟩

/-- C5.  Union aliasing: a two-member union `[(a, ta), (b, tb)]` has size
`max(ta.size(), tb.size())`; both members are generated at the union's own
offset; since the members share the address, member `b` reads exactly the
bytes member `a` reads wherever their extents overlap; and after a
successful write through a `Num` member, the overlapping bytes
subsequently readable through the other member are the bytes the write
packed (the statement is symmetric in `a` and `b` as both are
universally quantified). -/
theorem union_aliasing (a b : String) (ta tb : Ty) (off : Nat) :
    Union.size [(a, ta), (b, tb)] = max ta.size tb.size ∧
    genUnionAttrs [(a, ta), (b, tb)] off = [(a, ta, off), (b, tb, off)] ∧
    (∀ (vm : VM) (addr i : Nat), i < min ta.size tb.size →
      (getMem vm addr ta.size).getD i 0 = (getMem vm addr tb.size).getD i 0) ∧
    (∀ (na : NumT) (vm vm' : VM) (addr v : Nat),
      NumT.set na vm addr v = some vm' →
      ∀ i, i < min na.size tb.size →
        (getMem vm' addr tb.size).getD i 0 =
          (if na.le then packLE na.width v else (packLE na.width v).reverse).getD i 0) := by
  refine ⟨?_, rfl, ?_, ?_⟩
  · simp only [Union.size, List.foldl]
    omega
  · intro vm addr i hi
    rw [getMem_getD vm addr ta.size i (by omega),
      getMem_getD vm addr tb.size i (by omega)]
  · intro na vm vm' addr v hset i hi
    unfold NumT.set at hset
    obtain ⟨raw, hp, hvm⟩ := Option.map_eq_some'.mp hset
    subst hvm
    have hlen := NumT.pack_length na v raw hp
    have hps : raw = (if na.le then packLE na.width v else (packLE na.width v).reverse) := by
      unfold NumT.pack at hp
      split at hp
      · exact (Option.some.inj hp).symm
      · cases hp
    have hia : i < na.size := lt_of_lt_of_le hi (min_le_left _ _)
    have hib : i < tb.size := lt_of_lt_of_le hi (min_le_right _ _)
    rw [getMem_getD _ addr tb.size i hib]
    rw [setMem_inside vm addr raw i (by rw [hlen]; exact hia)]
    rw [hps]

/-- Witness for C5: the num-member write conjunct at `Num("B")` member `a`
and `Num("<H")` member `b`, value `0x41`, zeroed VM, address 0, overlap
byte 0. -/
theorem union_aliasing_witness :
    NumT.set ⟨1, true⟩ (fun _ => 0) 0 0x41 = some (setMem (fun _ => 0) 0 [0x41]) ∧
    ((0 : Nat) < min (NumT.size ⟨1, true⟩) (Ty.num ⟨2, true⟩).size) ∧
    (getMem (setMem (fun _ => 0) 0 [0x41]) 0 (Ty.num ⟨2, true⟩).size).getD 0 0 =
      (if (⟨1, true⟩ : NumT).le then packLE 1 0x41 else (packLE 1 0x41).reverse).getD 0 0 := by
  have hset : NumT.set ⟨1, true⟩ (fun _ => 0) 0 0x41 =
      some (setMem (fun _ => 0) 0 [0x41]) :=
    byte_set_eq (fun _ => 0) 0 0x41 (by norm_num)
  refine ⟨hset, by decide, ?_⟩
  exact (union_aliasing "a" "b" (Ty.num ⟨1, true⟩) (Ty.num ⟨2, true⟩) 0).2.2.2
    ⟨1, true⟩ (fun _ => 0) _ 0 0x41 hset 0 (by decide)

-- The pin cache (mem.py, `DYN_MEM_STRUCT_CACHE` and `pin`)

/-- The process-wide `DYN_MEM_STRUCT_CACHE`: an association list from
descriptor (dict keying uses the descriptors' structural `__eq__` with a
consistent `__hash__`) to the generated pinned view class, represented by
a numeric class identity. -/
abbrev Cache := List (Ty × Nat)

/-- `pin(field)`: return the cached pinned class if a structurally equal
key is present; otherwise create a fresh class (`type("Pinned%r" % field,
...)`, here the fresh identity `nextId`), cache it, and return it.
Nothing is ever removed from the cache. -/
def pin (cache : Cache) (nextId : Nat) (t : Ty) : Nat × Cache × Nat :=
  match cache.lookup t with
  | some cls => (cls, cache, nextId)
  | none => (nextId, (t, nextId) :: cache, nextId + 1)

/-- C8.  Cache identity: for structurally equal descriptors `a` and `bd`,
`pin bd` right after `pin a` returns the identical class object `pin a`
returned; and cache entries are never evicted: every mapping present
before a `pin` call is still present after it. -/
theorem pin_cache_identity (cache : Cache) (nextId : Nat) (a bd : Ty)
    (heq : a = bd) :
    (pin (pin cache nextId a).2.1 (pin cache nextId a).2.2 bd).1 =
      (pin cache nextId a).1 ∧
    (∀ k cls, cache.lookup k = some cls →
      ((pin cache nextId a).2.1).lookup k = some cls) := by
  subst heq
  constructor
  · unfold pin
    cases hl : cache.lookup a with
    | some cls => simp [hl]
    | none => simp [hl, List.lookup]
  · intro k cls hk
    unfold pin
    cases hl : cache.lookup a with
    | some c => simpa [hl] using hk
    | none =>
      simp only [hl]
      by_cases hka : k = a
      · subst hka
        rw [hk] at hl
        cases hl
      · have hbeq : (k == a) = false := beq_eq_false_iff_ne.mpr hka
        simpa [List.lookup, hbeq] using hk

/-- Witness for C8: two (equal) copies of the `Num("<I")` descriptor on an
empty cache. -/
theorem pin_cache_identity_witness :
    (pin (pin [] 0 (Ty.num ⟨4, true⟩)).2.1 (pin [] 0 (Ty.num ⟨4, true⟩)).2.2
        (Ty.num ⟨4, true⟩)).1 = (pin [] 0 (Ty.num ⟨4, true⟩)).1 ∧
    (∀ k cls, ([] : Cache).lookup k = some cls →
      ((pin [] 0 (Ty.num ⟨4, true⟩)).2.1).lookup k = some cls) :=
  pin_cache_identity [] 0 (Ty.num ⟨4, true⟩) (Ty.num ⟨4, true⟩) rfl

-- Sized array indexing (mem.py, `PinnedArray` / `PinnedSizedArray`)

/-- `PinnedSizedArray._normalize_idx` as written in the source: a negative
index maps to `self.get_size() - idx` (`get_size()` is the byte size, and
subtracting the negative `idx` adds `|idx|`).  On the `__getitem__` path
this method is never invoked: `PinnedSizedArray` overrides `_check_bounds`
with a version that does not call it, and `PinnedArray.index2addr` uses
the raw index. -/
def sizedNormalizeIdx (getSize : Nat) (idx : Int) : Int :=
  if idx < 0 then (getSize : Int) - idx else idx

/-- `PinnedSizedArray.get_size`: `self._array_len * self._field_type.size()`. -/
def sizedGetSize (t : Ty) (arrayLen : Nat) : Nat := arrayLen * t.size

/-- `PinnedSizedArray._check_bounds`:
`if idx < 0 or idx >= self.get_size(): raise IndexError`. -/
def sizedCheckBounds (t : Ty) (arrayLen : Nat) (idx : Int) : Except PyErr Unit :=
  if idx < 0 ∨ (sizedGetSize t arrayLen : Int) ≤ idx then .error .indexError
  else .ok ()

/-- `PinnedArray.index2addr`: check bounds, then return
`self.get_addr() + idx * self._field_type.size()` with the raw index. -/
def sizedIndex2addr (t : Ty) (arrayLen addr : Nat) (idx : Int) :
    Except PyErr Nat :=
  match sizedCheckBounds t arrayLen idx with
  | .error e => .error e
  | .ok _ => .ok (addr + idx.toNat * t.size)

/-- `PinnedSizedArray.__getitem__` for an integer index: the element's raw
bytes (`field_type.size()` of them, then unpacked by `field_type.get`) are
read at `index2addr(idx)`. -/
def sizedGetItem (vm : VM) (t : Ty) (arrayLen addr : Nat) (idx : Int) :
    Except PyErr (List Nat) :=
  match sizedIndex2addr t arrayLen addr idx with
  | .error e => .error e
  | .ok a => .ok (getMem vm a t.size)

/-- C6 (code evaluation).  Negative indexing on a sized array raises
`IndexError` instead of being normalized: on a sized array of 4 one-byte
elements, `view[-1]` raises while `view[3]` — the element the claim says
`view[-1]` should reach — reads fine; and the never-invoked
`_normalize_idx` would map `-1` to `get_size() - (-1) = 5`, not `3`. -/
theorem sized_negative_index_raises :
    sizedGetItem (fun _ => 0) (Ty.num ⟨1, true⟩) 4 0 (-1) =
      .error .indexError ∧
    sizedGetItem (fun _ => 0) (Ty.num ⟨1, true⟩) 4 0 3 = .ok [0] ∧
    sizedNormalizeIdx (sizedGetSize (Ty.num ⟨1, true⟩) 4) (-1) = 5 := by
  refine ⟨rfl, rfl, by decide⟩

/-- C7 (code evaluation).  `_check_bounds` compares the index against
`get_size()` — a byte count — instead of `array_len`: on a sized array of
2 two-byte (`Num("<H")`) elements, index 2 (equal to `array_len`) passes
the check (`2 < 4`), maps to address `addr + 4` — the first byte past the
array — and reads there instead of raising `IndexError`; only indices at
or past the byte size raise. -/
theorem sized_bounds_use_byte_size :
    sizedCheckBounds (Ty.num ⟨2, true⟩) 2 2 = .ok () ∧
    sizedGetSize (Ty.num ⟨2, true⟩) 2 = 4 ∧
    sizedIndex2addr (Ty.num ⟨2, true⟩) 2 0 2 = .ok 4 ∧
    sizedGetItem (fun _ => 0) (Ty.num ⟨2, true⟩) 2 0 2 = .ok [0, 0] ∧
    sizedGetItem (fun _ => 0) (Ty.num ⟨2, true⟩) 2 0 4 = .error .indexError := by
  refine ⟨rfl, by decide, rfl, rfl, rfl⟩

-- View equality (mem.py, `PinnedType.__eq__` / `PinnedSizedArray.__eq__`)

/-- A `PinnedSizedArray` view: the bound `(vm, addr)`, the instance
attributes `_field_type` and `_array_len`, and the concrete Python class
of the view (plain `PinnedSizedArray` or a `mem_sized_array_type`-generated
subclass), represented by a numeric class identity. -/
structure SizedArrayView where
  vm : VM
  addr : Nat
  fieldType : Ty
  arrayLen : Nat
  clsId : Nat

/-- `raw()` / `__str__` of a sized array view: the
`get_size() = array_len * field_type.size()` bytes at `addr`. -/
def SizedArrayView.raw (s : SizedArrayView) : List Nat :=
  getMem s.vm s.addr (s.arrayLen * s.fieldType.size)

/-- `PinnedSizedArray.__eq__`: `isinstance(other, PinnedSizedArray)` (true
for every sized-array view, generated subclasses included), equal
`_field_type`, equal `_array_len`, and `str(self) == str(other)`.  The
concrete class is not compared. -/
def SizedArrayView.eq (s o : SizedArrayView) : Bool :=
  s.fieldType == o.fieldType && s.arrayLen == o.arrayLen && s.raw == o.raw

/-- A generic pinned view for `PinnedType.__eq__`: bound `(vm, addr)`, the
view's dynamic size and its concrete Python class. -/
structure PinnedView where
  vm : VM
  addr : Nat
  size : Nat
  clsId : Nat

/-- `raw()` of a generic pinned view. -/
def PinnedView.raw (p : PinnedView) : List Nat := getMem p.vm p.addr p.size

/-- `PinnedType.__eq__`:
`self.__class__ == other.__class__ and str(self) == str(other)`. -/
def PinnedView.eq (p o : PinnedView) : Bool :=
  p.clsId == o.clsId && p.raw == o.raw

/-- C10.  Sized-array view equality ignores the concrete class: two sized
array views are equal iff their element descriptors, lengths and raw bytes
agree — in particular a `mem_sized_array_type`-generated subclass instance
(class identity 1) equals a plain `PinnedSizedArray` (class identity 0)
over the same bytes — whereas the base `PinnedType.__eq__` of every other
pinned view additionally requires the identical class, so the same two
class identities differ under it. -/
theorem sized_array_eq_ignores_class :
    (∀ s o : SizedArrayView, SizedArrayView.eq s o = true ↔
      (s.fieldType = o.fieldType ∧ s.arrayLen = o.arrayLen ∧ s.raw = o.raw)) ∧
    (∀ p o : PinnedView, PinnedView.eq p o = true ↔
      (p.clsId = o.clsId ∧ p.raw = o.raw)) ∧
    SizedArrayView.eq ⟨fun _ => 0, 0, Ty.num ⟨1, true⟩, 2, 0⟩
      ⟨fun _ => 0, 0, Ty.num ⟨1, true⟩, 2, 1⟩ = true ∧
    PinnedView.eq ⟨fun _ => 0, 0, 2, 0⟩ ⟨fun _ => 0, 0, 2, 1⟩ = false := by
  refine ⟨?_, ?_, ?_, ?_⟩
  · intro s o
    simp [SizedArrayView.eq, Bool.and_eq_true, and_assoc]
  · intro p o
    simp [PinnedView.eq, Bool.and_eq_true]
  · decide
  · decide

end MiasmMem
